import Mathlib

/-!
Verification development for the `essential-viewer-i18n` translator.

The repository localizes an XML string catalog into Italian through an LLM
backend.  The development below is a shallow embedding of the three source
files (`translator/translate.py`, `translator/xml_name_checker.py`):

* Python strings are Lean `String`s; `.strip()`, `.lower()`, the substring
  test `a in b` and `" ".join(...)` are modelled character-list-wise below.
* The record store (a JSON array of `{name, value, processed, glossaries}`
  objects) is a `List Record`; `save_json` persistence is modelled by the
  functions returning the store that is written to disk.  A Python exception
  that escapes a function (aborting the run before any save) is modelled by
  `Except.error ()`; `Except.ok` carries the persisted store.
* The LLM transport is abstracted: the batch call's outcome is a
  `BatchReply` (transport error, a reply whose cleaned text fails structural
  JSON decoding, or a reply parsed to a JSON array of strings); the
  single-item fallback transport is a function `String → Except Unit String`
  from the record's source text to the raw reply text or a transport error.
  Replies that parse to JSON values other than arrays of strings behave
  observably like the unparsable case (the Python code reaches the broad
  `except` and falls back), so they are folded into `BatchReply.unparsable`.
* XML documents are modelled structurally: a catalog is the list of its
  `message` elements, each with an optional `name` child text and an
  optional `value` child text (a present child whose text is Python `None`
  is modelled as `some ""`, which the sources treat identically).
-/

/-! ## Python string primitives -/

/-- Drop trailing whitespace: a character is kept unless it is whitespace and
everything after it is dropped. -/
def dropTrailWs : List Char → List Char
  | [] => []
  | c :: rest =>
    let r := dropTrailWs rest
    if r.isEmpty && c.isWhitespace then [] else c :: r

/-- Model of stripping ASCII whitespace from both ends of a character list,
as Python `str.strip()` does on the catalog texts involved. -/
def stripChars (l : List Char) : List Char :=
  dropTrailWs (l.dropWhile Char.isWhitespace)

/-- Model of Python `s.strip()`. -/
def pyStrip (s : String) : String :=
  ⟨stripChars s.data⟩

/-- Does `n` start the list `h`?  Auxiliary for the substring test. -/
def startsList : List Char → List Char → Bool
  | [], _ => true
  | _ :: _, [] => false
  | a :: as, b :: bs => a == b && startsList as bs

/-- Does `n` occur contiguously inside `h`?  Auxiliary for `isSubstr`. -/
def hasSub (n : List Char) : List Char → Bool
  | [] => n.isEmpty
  | c :: t => startsList n (c :: t) || hasSub n t

/-- Model of the Python substring test `needle in hay`. -/
def isSubstr (needle hay : String) : Bool :=
  hasSub needle.data hay.data

/-- Model of Python `" ".join(texts)`, the joining used for batch texts. -/
def joinSpace : List String → String
  | [] => ""
  | [s] => s
  | s :: rest => s ++ " " ++ joinSpace rest

/-- Plain concatenation of a list of strings with no separator — the literal
reading of "the concatenation of the texts" in the specification. -/
def concatAll : List String → String
  | [] => ""
  | s :: rest => s ++ concatAll rest

/-- Model of Python `", ".join(texts)`, used for the glossary enumeration. -/
def joinComma : List String → String
  | [] => ""
  | [s] => s
  | s :: rest => s ++ ", " ++ joinComma rest

/-! ## Data model (`database.json` and `glossary.json`) -/

/-- One entry of the record store `config/database.json`:
`{name, value, processed, glossaries}`. -/
structure Record where
  name : String
  value : String
  processed : Bool
  glossaries : List String
deriving Repr, DecidableEq

/-- One entry of `config/glossary.json`'s `technical_terms` array. -/
structure GlossaryTerm where
  term : String
  do_not_translate : Bool
  note : String
deriving Repr, DecidableEq

/-- Predicate of the specification's record-store invariant: every processed
record carries a non-empty translated value. -/
def procNonempty (db : List Record) : Prop :=
  ∀ r ∈ db, r.processed = true → r.value ≠ ""

/-! ## Prompt construction (`build_system_prompt`, translate.py lines 161-192) -/

/-- The glossary terms retained for a prompt: those occurring as a substring
of the combined batch text (`[term for term in glossary_terms if term in
combined_text]`). -/
def relevantTerms (glossary_terms : List String) (combined_text : String) : List String :=
  glossary_terms.filter (fun t => isSubstr t combined_text)

/-- Model of the f-string quoting `f"\x27{term}\x27"`. -/
def quoteTerm (t : String) : String :=
  "\x27" ++ t ++ "\x27"

/-- The fixed head of the system prompt (translate.py lines 172-178). -/
def basePrompt : String :=
  "You are an expert Enterprise Architecture translator (English to Italian). " ++
  "Your task is to translate the provided text naturally but accurately.\n" ++
  "RULES:\n" ++
  "1. Do NOT translate technical acronyms (e.g., TOGAF, API, AWS).\n" ++
  "2. Do NOT change symbols like \x27#\x27, \x27@\x27 or numbering.\n"

/-- Rule 3 of the prompt, present only when some glossary term is relevant. -/
def glossaryRule (glossary_str : String) : String :=
  "3. STRICTLY DO NOT TRANSLATE the following terms: [" ++ glossary_str ++
  "]. Keep them in English.\n"

/-- Rule 4 in batch mode (translate.py lines 184-188). -/
def batchRule : String :=
  "4. OUTPUT FORMAT: Return ONLY a valid JSON array of strings containing the translations. " ++
  "Example: [\"Traduzione 1\", \"Traduzione 2\"]. " ++
  "Do NOT output markdown code blocks or explanations."

/-- Rule 4 in single-item mode (translate.py line 190). -/
def singleRule : String :=
  "4. Output ONLY the translated string."

/-- Model of `build_system_prompt(glossary_terms, texts_to_check, batch_mode)`.
The Python function accepts either a list of texts (joined with a single
space) or one string as `texts_to_check`; callers below pass `joinSpace`
of the list, respectively the single string, as `combined_text`. -/
def build_system_prompt (glossary_terms : List String) (combined_text : String)
    (batch_mode : Bool) : String :=
  let relevant := relevantTerms glossary_terms combined_text
  let glossary_str := if relevant.isEmpty then "" else joinComma (relevant.map quoteTerm)
  basePrompt ++
    (if glossary_str = "" then "" else glossaryRule glossary_str) ++
    (if batch_mode then batchRule else singleRule)

/-! ## Importer (`import_xml_to_json`, translate.py lines 195-220) -/

/-- The loop body of `import_xml_to_json`: walk the catalog's `name` texts in
order, skip falsy (empty) texts, strip, skip names already seen, append new
records.  `existing` carries the set `{i["name"] for i in db if i.get("name")}`
extended with the names appended so far. -/
def importLoop : List String → List Record → List String → List Record
  | [], db, _ => db
  | t :: rest, db, existing =>
    if t = "" then importLoop rest db existing
    else
      let name := pyStrip t
      if name ∈ existing then importLoop rest db existing
      else
        importLoop rest
          (db ++ [{ name := name, value := "", processed := false, glossaries := [] }])
          (name :: existing)

/-- Model of `import_xml_to_json`: `catalog` is the list of `name`-node texts
of the source XML's `message` elements in document order (a missing node is
simply absent from the list; a present node with `None` text contributes `""`,
which the truthiness test skips).  The result is the store passed to
`save_json`. -/
def import_xml_to_json (catalog : List String) (db : List Record) : List Record :=
  importLoop catalog db ((db.filter (fun r => decide (r.name ≠ ""))).map (fun r => r.name))

/-! ## Glossary mapping (`map_glossaries_to_database`, translate.py lines 137-158) -/

/-- Model of `map_glossaries_to_database`: on a non-empty store and non-empty
term list, each record's `glossaries` is replaced by the glossary terms (in
glossary order, with no `do_not_translate` filter) occurring as substrings of
the record's `value`; an empty store or an empty term list returns early. -/
def map_glossaries_to_database (db : List Record) (glossary : List GlossaryTerm) :
    List Record :=
  if db.isEmpty then db
  else
    let all_terms := glossary.map (fun t => t.term)
    if all_terms.isEmpty then db
    else db.map (fun r => { r with glossaries := all_terms.filter (fun t => isSubstr t r.value) })

/-- Specification-side description of the glossary-mapping update for one
record value: the glossary terms, in glossary order, occurring in it. -/
def glossariesFor (glossary : List GlossaryTerm) (v : String) : List String :=
  (glossary.map (fun t => t.term)).filter (fun t => isSubstr t v)

/-! ## Batch translator (`translate_items` / `translate_items_fallback`,
translate.py lines 223-291) -/

/-- Outcome of the batch transport-and-parse pipeline (`translate_texts`
followed by `json.loads`):
`transportError` — `translate_texts` raised (the raise at line 247 is outside
the `try`, so it escapes `translate_items`);
`unparsable` — the reply text was returned but `json.loads` (or the
subsequent positional processing) raised, covering malformed JSON and JSON
values other than arrays of strings;
`parsed xs` — the cleaned reply parsed as a JSON array of strings `xs`. -/
inductive BatchReply where
  | transportError
  | unparsable
  | parsed (translations : List String)
deriving Repr, DecidableEq

/-- The successful batch assignment (translate.py lines 261-263): the i-th
translation, stripped, becomes the value of the i-th unprocessed record,
which is marked processed; records beyond the batch are unchanged. -/
def applyBatch (translations : List String) : List Record → List Record
  | [] => []
  | r :: rest =>
    if r.processed then r :: applyBatch translations rest
    else
      match translations with
      | [] => r :: rest
      | t :: ts => { r with value := pyStrip t, processed := true } :: applyBatch ts rest

/-- Model of `translate_items_fallback(batch, glossary_terms, db)` acting on
the whole store: `k` is the batch budget, so the records visited are the
first `k` unprocessed ones (exactly the `batch` argument of the Python
function, which holds references into `db`).  Each visited record is
translated individually; its stripped reply becomes its value and it is
marked processed.  There is no `try` inside the Python loop: a transport
error escapes the function before `save_json` runs, so nothing is persisted —
modelled by `Except.error ()` discarding the partial updates. -/
def translate_items_fallback (fb : String → Except Unit String) :
    Nat → List Record → Except Unit (List Record)
  | _, [] => .ok []
  | k, r :: rest =>
    if r.processed then
      (translate_items_fallback fb k rest).map (fun rs => r :: rs)
    else if k = 0 then .ok (r :: rest)
    else
      match fb r.name with
      | .error e => .error e
      | .ok t =>
        (translate_items_fallback fb (k - 1) rest).map
          (fun rs => { r with value := pyStrip t, processed := true } :: rs)

/-- Pure version of the fallback pass for a transport that always answers:
`g` maps a record's source text to the raw reply text. -/
def fallbackPure (g : String → String) : Nat → List Record → List Record
  | _, [] => []
  | k, r :: rest =>
    if r.processed then r :: fallbackPure g k rest
    else if k = 0 then r :: rest
    else { r with value := pyStrip (g r.name), processed := true } :: fallbackPure g (k - 1) rest

/-- Model of `translate_items(batch_size)` for one driving-loop iteration.
`db` is the store loaded from disk; an `ok (db2, more)` result means `db2`
was passed to `save_json` (or, on the empty-store early return, that the
store is untouched) and `more` was returned to the caller; `error ()` means
an exception escaped before any save.  The batch is `to_process[:batch_size]`;
on a parsed reply of matching length the positional assignment runs and the
function returns `len(to_process) > batch_size`; on a length mismatch or an
unparsable reply the per-record fallback runs and the function returns the
fallback's `True`. -/
def translate_items (reply : BatchReply) (fb : String → Except Unit String)
    (db : List Record) (batch_size : Nat) : Except Unit (List Record × Bool) :=
  let to_process := db.filter (fun r => !r.processed)
  if to_process.isEmpty then .ok (db, false)
  else
    match reply with
    | .transportError => .error ()
    | .unparsable =>
      match translate_items_fallback fb batch_size db with
      | .error e => .error e
      | .ok db2 => .ok (db2, true)
    | .parsed translations =>
      if translations.length = (to_process.take batch_size).length then
        .ok (applyBatch translations db, decide (to_process.length > batch_size))
      else
        match translate_items_fallback fb batch_size db with
        | .error e => .error e
        | .ok db2 => .ok (db2, true)

/-- The texts of the current batch (translate.py line 241). -/
def batchTexts (db : List Record) (batch_size : Nat) : List String :=
  ((db.filter (fun r => !r.processed)).take batch_size).map (fun r => r.name)

/-- Number of unprocessed records strictly before position `j` of the store:
the batch slot that position `j` occupies, if it is in the batch. -/
def unprocBefore (db : List Record) (j : Nat) : Nat :=
  ((db.take j).filter (fun r => !r.processed)).length

/-- The glossary terms named by the batch instruction, following the two
filtering stages of the source: translate.py lines 233-239 keep the
`do_not_translate` terms occurring in `" ".join` of the batch texts, and
`build_system_prompt` filters its argument against the same joined text
again. -/
def promptTermsOf (glossary : List GlossaryTerm) (db : List Record) (batch_size : Nat) :
    List String :=
  let objs := (glossary.filter (fun t => t.do_not_translate)).map (fun t => t.term)
  relevantTerms (relevantTerms objs (joinSpace (batchTexts db batch_size)))
    (joinSpace (batchTexts db batch_size))

/-- The system instruction built for the current batch (translate.py line 242
composed with `build_system_prompt`). -/
def batchPromptOf (glossary : List GlossaryTerm) (db : List Record) (batch_size : Nat) :
    String :=
  let objs := (glossary.filter (fun t => t.do_not_translate)).map (fun t => t.term)
  build_system_prompt (relevantTerms objs (joinSpace (batchTexts db batch_size)))
    (joinSpace (batchTexts db batch_size)) true

/-! ## Catalog write-back (`update_xml_with_translations`, translate.py
lines 294-330) -/

/-- One `message` element of a catalog: the text of its `name` child and the
text of its `value` child, each `none` when the child element is absent. -/
structure XmlMessage where
  name : Option String
  value : Option String
deriving Repr, DecidableEq

/-- The `{i["name"]: i["value"] for i in db if i.get("value")}` comprehension:
the bindings contributed, in store order (a later record with the same name
overwrites an earlier one, as in a Python dict). -/
def translationsOf (db : List Record) : List (String × String) :=
  (db.filter (fun r => decide (r.value ≠ ""))).map (fun r => (r.name, r.value))

/-- Lookup in the dict built from `pairs`: the last binding for `key` wins. -/
def lookupLast (pairs : List (String × String)) (key : String) : Option String :=
  (pairs.reverse.find? (fun p => p.1 == key)).map (fun p => p.2)

/-- The walk over the catalog's `message` elements (translate.py lines
311-324): an element with a truthy `name` text whose stripped name is a dict
key and which has a `value` child gets that child's text overwritten and is
counted; every other element is left untouched. -/
def updateMsgs (tr : String → Option String) : List XmlMessage → List XmlMessage × Nat
  | [] => ([], 0)
  | m :: rest =>
    let done := updateMsgs tr rest
    match m.name with
    | none => (m :: done.1, done.2)
    | some s =>
      if s = "" then (m :: done.1, done.2)
      else
        match tr (pyStrip s), m.value with
        | some v, some _ => ({ m with value := some v } :: done.1, done.2 + 1)
        | _, _ => (m :: done.1, done.2)

/-- Model of `update_xml_with_translations`: the rewritten catalog (which
`tree.write` then serializes) together with the returned `updated_count`. -/
def update_xml_with_translations (db : List Record) (catalog : List XmlMessage) :
    List XmlMessage × Nat :=
  updateMsgs (lookupLast (translationsOf db)) catalog

/-- Specification-side description of the walk: should this element be
overwritten? -/
def shouldUpd (tr : String → Option String) (m : XmlMessage) : Bool :=
  match m.name with
  | none => false
  | some s => decide (s ≠ "") && (tr (pyStrip s)).isSome && m.value.isSome

/-- Specification-side description of the walk: the element after the visit. -/
def updOne (tr : String → Option String) (m : XmlMessage) : XmlMessage :=
  if shouldUpd tr m then { m with value := tr (pyStrip (m.name.getD "")) } else m

/-! ## Catalog aligner (`xml_name_checker.py`) -/

/-- Whitespace normalization of `clean_text` applied before stripping:
`re.sub(r"\s+", " ", text)` replaces each maximal whitespace run by one
space.  `prevWs` records whether the previous character was part of a run. -/
def subWsAux : Bool → List Char → List Char
  | _, [] => []
  | prevWs, c :: rest =>
    if c.isWhitespace then
      if prevWs then subWsAux true rest
      else ' ' :: subWsAux true rest
    else c :: subWsAux false rest

/-- Model of `clean_text(text)` on a present text: collapse whitespace runs
to single spaces, then strip. -/
def cleanText (s : String) : String :=
  ⟨stripChars (subWsAux false s.data)⟩

/-- Model of `clean_text` including its `None` guard. -/
def clean_text (t : Option String) : String :=
  match t with
  | none => ""
  | some s => cleanText s

/-- Model of `get_names_from_file` restricted to the catalog structure: the
cleaned, non-empty `name` texts of the catalog's messages.  (The Python
function collects a set; only membership in the result is used below, so a
list with possible duplicates is an adequate model.) -/
def getNames (msgs : List XmlMessage) : List String :=
  msgs.filterMap (fun m =>
    match m.name with
    | none => none
    | some t => if cleanText t = "" then none else some (cleanText t))

/-- Lexicographic comparison of character lists by code point, as Python
compares strings. -/
def strLe : List Char → List Char → Bool
  | [], _ => true
  | _ :: _, [] => false
  | a :: as, b :: bs => if a.toNat = b.toNat then strLe as bs else decide (a.toNat < b.toNat)

/-- The sort key comparison `x[0].lower() <= y[0].lower()` of
`xml_name_checker.py` line 75 (ASCII lowercasing). -/
def keyLe (a b : String) : Bool :=
  strLe (a.data.map Char.toLower) (b.data.map Char.toLower)

/-- The cleaned name a message sorts under. -/
def msgKey (m : XmlMessage) : String :=
  cleanText (m.name.getD "")

/-- Step 2 of `update_and_format_xml`: the existing messages that have a
`name` child, keyed by cleaned name (`existing_messages` in the source). -/
def existingPairs (target : List XmlMessage) : List (String × XmlMessage) :=
  target.filterMap (fun m => m.name.map (fun t => (cleanText t, m)))

/-- Step 3 of `update_and_format_xml`: a synthesized
`<message><name>tag</name><value/></message>` for every missing tag not
already keyed by an existing message. -/
def addedPairs (target : List XmlMessage) (missing : List String) :
    List (String × XmlMessage) :=
  (missing.filter (fun tag => decide (tag ∉ (existingPairs target).map (fun p => p.1)))).map
    (fun tag => (tag, ({ name := some tag, value := some "" } : XmlMessage)))

/-- Model of `update_and_format_xml(target_path, all_missing_tags)`: collect
the existing keyed messages, synthesize entries for the missing tags, sort
everything case-insensitively by key and rebuild the container with exactly
the sorted messages.  (`missing` is a Python set; it is passed here as a
duplicate-free list in some order — the sort makes the order irrelevant up
to ties, and no claim depends on tie order.) -/
def update_and_format_xml (target : List XmlMessage) (missing : List String) :
    List XmlMessage :=
  (List.insertionSort (fun p q : String × XmlMessage => keyLe p.1 q.1 = true)
    (existingPairs target ++ addedPairs target missing)).map (fun p => p.2)

/-- Model of `xml_name_checker.main()` on an existing target: compute the
union of the other catalogs' name sets, subtract the target's names, and
when something is missing rewrite the target through
`update_and_format_xml`; the returned number is the reported count of added
tags (`len(missing)`), zero when no action was needed. -/
def alignMain (others : List (List XmlMessage)) (target : List XmlMessage) :
    List XmlMessage × Nat :=
  let otherNames := (others.map getNames).flatten
  let missing := (otherNames.filter (fun n => decide (n ∉ getNames target))).dedup
  if missing = [] then (target, 0)
  else (update_and_format_xml target missing, missing.length)

/-- Adjacent-pair property of a whitespace-collapsed text: no two consecutive
whitespace characters (specification-side, used to reason about `cleanText`). -/
def noWsPair (a b : Char) : Prop :=
  ¬(a.isWhitespace = true ∧ b.isWhitespace = true)

/-! ## Helper lemmas: the batch assignment and the fallback pass -/

theorem unprocBefore_zero (db : List Record) : unprocBefore db 0 = 0 := by
  simp [unprocBefore]

theorem unprocBefore_succ (d : Record) (rest : List Record) (j : Nat) :
    unprocBefore (d :: rest) (j + 1) =
      (if d.processed then 0 else 1) + unprocBefore rest j := by
  simp only [unprocBefore, List.take_succ_cons, List.filter_cons]
  cases hd : d.processed with
  | true => simp
  | false => simp [Nat.add_comm]

theorem applyBatch_getElem? (db : List Record) (xs : List String) (j : Nat) (r : Record)
    (h : db[j]? = some r) :
    (applyBatch xs db)[j]? = some (
      if r.processed = false ∧ unprocBefore db j < xs.length then
        { r with value := pyStrip (xs.getD (unprocBefore db j) ""), processed := true }
      else r) := by
  induction db generalizing xs j with
  | nil => simp at h
  | cons d rest ih =>
    cases hd : d.processed with
    | true =>
      have happ : applyBatch xs (d :: rest) = d :: applyBatch xs rest := by
        simp [applyBatch, hd]
      cases j with
      | zero =>
        simp only [List.getElem?_cons_zero, Option.some.injEq] at h
        subst h
        simp [happ, hd, unprocBefore_zero]
      | succ j' =>
        simp only [List.getElem?_cons_succ] at h
        rw [happ, List.getElem?_cons_succ, ih xs j' h, unprocBefore_succ, hd]
        simp
    | false =>
      cases xs with
      | nil =>
        have happ : applyBatch [] (d :: rest) = d :: rest := by
          simp [applyBatch, hd]
        rw [happ, h]
        simp
      | cons t ts =>
        have happ : applyBatch (t :: ts) (d :: rest) =
            { d with value := pyStrip t, processed := true } :: applyBatch ts rest := by
          simp [applyBatch, hd]
        cases j with
        | zero =>
          simp only [List.getElem?_cons_zero, Option.some.injEq] at h
          subst h
          simp [happ, hd, unprocBefore_zero]
        | succ j' =>
          simp only [List.getElem?_cons_succ] at h
          rw [happ, List.getElem?_cons_succ, ih ts j' h, unprocBefore_succ, hd]
          simp only [Bool.false_eq_true, if_false, List.length_cons]
          by_cases hc : r.processed = false ∧ unprocBefore rest j' < ts.length
          · obtain ⟨hc1, hc2⟩ := hc
            rw [if_pos ⟨hc1, hc2⟩, if_pos ⟨hc1, by omega⟩, Nat.add_comm 1,
              List.getD_cons_succ]
          · rw [if_neg hc, if_neg ?_]
            rintro ⟨h1, h2⟩
            exact hc ⟨h1, by omega⟩

theorem fallbackPure_getElem? (db : List Record) (g : String → String) (k j : Nat)
    (r : Record) (h : db[j]? = some r) :
    (fallbackPure g k db)[j]? = some (
      if r.processed = false ∧ unprocBefore db j < k then
        { r with value := pyStrip (g r.name), processed := true }
      else r) := by
  induction db generalizing k j with
  | nil => simp at h
  | cons d rest ih =>
    cases hd : d.processed with
    | true =>
      have happ : fallbackPure g k (d :: rest) = d :: fallbackPure g k rest := by
        simp [fallbackPure, hd]
      cases j with
      | zero =>
        simp only [List.getElem?_cons_zero, Option.some.injEq] at h
        subst h
        simp [happ, hd, unprocBefore_zero]
      | succ j' =>
        simp only [List.getElem?_cons_succ] at h
        rw [happ, List.getElem?_cons_succ, ih k j' h, unprocBefore_succ, hd]
        simp
    | false =>
      cases k with
      | zero =>
        have happ : fallbackPure g 0 (d :: rest) = d :: rest := by
          simp [fallbackPure, hd]
        rw [happ, h]
        simp
      | succ k' =>
        have happ : fallbackPure g (k' + 1) (d :: rest) =
            { d with value := pyStrip (g d.name), processed := true } ::
              fallbackPure g k' rest := by
          simp [fallbackPure, hd]
        cases j with
        | zero =>
          simp only [List.getElem?_cons_zero, Option.some.injEq] at h
          subst h
          simp [happ, hd, unprocBefore_zero]
        | succ j' =>
          simp only [List.getElem?_cons_succ] at h
          rw [happ, List.getElem?_cons_succ, ih k' j' h, unprocBefore_succ, hd]
          simp only [Bool.false_eq_true, if_false]
          by_cases hc : r.processed = false ∧ unprocBefore rest j' < k'
          · obtain ⟨hc1, hc2⟩ := hc
            rw [if_pos ⟨hc1, hc2⟩, if_pos ⟨hc1, by omega⟩]
          · rw [if_neg hc, if_neg ?_]
            rintro ⟨h1, h2⟩
            exact hc ⟨h1, by omega⟩

theorem translate_items_fallback_eq_pure (g : String → String) (k : Nat)
    (db : List Record) :
    translate_items_fallback (fun n => .ok (g n)) k db = .ok (fallbackPure g k db) := by
  induction db generalizing k with
  | nil => rfl
  | cons d rest ih =>
    cases hd : d.processed with
    | true => simp [translate_items_fallback, fallbackPure, hd, ih, Except.map]
    | false =>
      cases k with
      | zero => simp [translate_items_fallback, fallbackPure, hd]
      | succ k' => simp [translate_items_fallback, fallbackPure, hd, ih, Except.map]

theorem translate_items_fallback_error (fb : String → Except Unit String) (k : Nat)
    (db : List Record)
    (h : ∃ r ∈ (db.filter (fun r => !r.processed)).take k, fb r.name = .error ()) :
    translate_items_fallback fb k db = .error () := by
  induction db generalizing k with
  | nil => simp at h
  | cons d rest ih =>
    cases hd : d.processed with
    | true =>
      simp only [List.filter_cons, hd] at h
      simp only [translate_items_fallback, hd, if_true]
      rw [ih k (by simpa using h)]
      rfl
    | false =>
      cases k with
      | zero => simp at h
      | succ k' =>
        simp only [List.filter_cons, hd, Bool.not_false, if_pos, List.take_succ_cons,
          List.mem_cons] at h
        simp only [translate_items_fallback, hd, Bool.false_eq_true, if_false,
          Nat.succ_ne_zero, Nat.add_sub_cancel]
        rcases h with ⟨r, hr, herr⟩
        rcases hr with hr | hr
        · subst hr
          rw [herr]
        · cases hfb : fb d.name with
          | error e => rfl
          | ok t =>
            rw [ih k' ⟨r, by simpa using hr, herr⟩]
            rfl

theorem translate_items_empty (reply : BatchReply) (fb : String → Except Unit String)
    (db : List Record) (bs : Nat) (h : db.filter (fun r => !r.processed) = []) :
    translate_items reply fb db bs = .ok (db, false) := by
  simp [translate_items, h]

theorem translate_items_parsed_ok (db : List Record) (xs : List String) (bs : Nat)
    (fb : String → Except Unit String)
    (hne : db.filter (fun r => !r.processed) ≠ [])
    (hlen : xs.length = ((db.filter (fun r => !r.processed)).take bs).length) :
    translate_items (.parsed xs) fb db bs =
      .ok (applyBatch xs db, decide ((db.filter (fun r => !r.processed)).length > bs)) := by
  simp only [translate_items, List.isEmpty_iff]
  rw [if_neg hne, if_pos hlen]

theorem translate_items_parsed_mismatch (db : List Record) (xs : List String) (bs : Nat)
    (fb : String → Except Unit String)
    (hlen : xs.length ≠ ((db.filter (fun r => !r.processed)).take bs).length) :
    translate_items (.parsed xs) fb db bs = translate_items .unparsable fb db bs := by
  simp only [translate_items, List.isEmpty_iff]
  by_cases hne : db.filter (fun r => !r.processed) = []
  · rw [if_pos hne, if_pos hne]
  · rw [if_neg hne, if_neg hne, if_neg hlen]

theorem translate_items_unparsable_ok (db : List Record) (bs : Nat) (g : String → String)
    (hne : db.filter (fun r => !r.processed) ≠ []) :
    translate_items .unparsable (fun n => .ok (g n)) db bs =
      .ok (fallbackPure g bs db, true) := by
  simp only [translate_items, List.isEmpty_iff]
  rw [if_neg hne, translate_items_fallback_eq_pure]

theorem translate_items_unparsable_error (db : List Record) (bs : Nat)
    (fb : String → Except Unit String)
    (h : ∃ r ∈ (db.filter (fun r => !r.processed)).take bs, fb r.name = .error ()) :
    translate_items .unparsable fb db bs = .error () := by
  have hne : db.filter (fun r => !r.processed) ≠ [] := by
    rcases h with ⟨r, hr, _⟩
    intro hnil
    rw [hnil] at hr
    simp at hr
  simp only [translate_items, List.isEmpty_iff]
  rw [if_neg hne, translate_items_fallback_error fb bs db h]

/-! ## Helper lemmas: preservation of the processed-implies-nonempty invariant -/

theorem applyBatch_procNonempty (db : List Record) (xs : List String)
    (hdb : procNonempty db) (hxs : ∀ s ∈ xs, pyStrip s ≠ "") :
    procNonempty (applyBatch xs db) := by
  induction db generalizing xs with
  | nil =>
    intro r hr
    simp [applyBatch] at hr
  | cons d rest ih =>
    have hd' : procNonempty rest := fun r hr => hdb r (List.mem_cons_of_mem d hr)
    cases hd : d.processed with
    | true =>
      have happ : applyBatch xs (d :: rest) = d :: applyBatch xs rest := by
        simp [applyBatch, hd]
      rw [happ]
      intro r hr hp
      rcases List.mem_cons.mp hr with h | h
      · subst h
        exact hdb _ (List.mem_cons_self _ _) hp
      · exact ih xs hd' hxs r h hp
    | false =>
      cases xs with
      | nil =>
        have happ : applyBatch [] (d :: rest) = d :: rest := by
          simp [applyBatch, hd]
        rw [happ]
        exact hdb
      | cons t ts =>
        have happ : applyBatch (t :: ts) (d :: rest) =
            { d with value := pyStrip t, processed := true } :: applyBatch ts rest := by
          simp [applyBatch, hd]
        rw [happ]
        intro r hr hp
        rcases List.mem_cons.mp hr with h | h
        · subst h
          exact hxs t (List.mem_cons_self t ts)
        · exact ih ts hd' (fun s hs => hxs s (List.mem_cons_of_mem t hs)) r h hp

theorem fallbackPure_procNonempty (db : List Record) (g : String → String) (k : Nat)
    (hdb : procNonempty db) (hg : ∀ n, pyStrip (g n) ≠ "") :
    procNonempty (fallbackPure g k db) := by
  induction db generalizing k with
  | nil =>
    intro r hr
    simp [fallbackPure] at hr
  | cons d rest ih =>
    have hd' : procNonempty rest := fun r hr => hdb r (List.mem_cons_of_mem d hr)
    cases hd : d.processed with
    | true =>
      have happ : fallbackPure g k (d :: rest) = d :: fallbackPure g k rest := by
        simp [fallbackPure, hd]
      rw [happ]
      intro r hr hp
      rcases List.mem_cons.mp hr with h | h
      · subst h
        exact hdb _ (List.mem_cons_self _ _) hp
      · exact ih k hd' r h hp
    | false =>
      cases k with
      | zero =>
        have happ : fallbackPure g 0 (d :: rest) = d :: rest := by
          simp [fallbackPure, hd]
        rw [happ]
        exact hdb
      | succ k' =>
        have happ : fallbackPure g (k' + 1) (d :: rest) =
            { d with value := pyStrip (g d.name), processed := true } ::
              fallbackPure g k' rest := by
          simp [fallbackPure, hd]
        rw [happ]
        intro r hr hp
        rcases List.mem_cons.mp hr with h | h
        · subst h
          exact hg d.name
        · exact ih k' hd' r h hp

/-! ## Helper lemmas: the importer -/

theorem importLoop_spec (c : List String) :
    ∀ (db : List Record) (ex : List String), ∃ suffix : List Record,
      importLoop c db ex = db ++ suffix ∧
      (∀ r ∈ suffix, r.value = "" ∧ r.processed = false ∧ r.glossaries = [] ∧ r.name ∉ ex) ∧
      (suffix.map (fun r => r.name)).Nodup ∧
      (∀ r ∈ suffix, ∃ t ∈ c, t ≠ "" ∧ r.name = pyStrip t) := by
  induction c with
  | nil =>
    intro db ex
    exact ⟨[], by simp [importLoop]⟩
  | cons u rest ih =>
    intro db ex
    by_cases hu : u = ""
    · obtain ⟨suf, h1, h2, h3, h4⟩ := ih db ex
      refine ⟨suf, ?_, h2, h3, ?_⟩
      · rw [show importLoop (u :: rest) db ex = importLoop rest db ex by
          simp [importLoop, hu]]
        exact h1
      · intro r hr
        obtain ⟨t, ht, hne, heq⟩ := h4 r hr
        exact ⟨t, List.mem_cons_of_mem u ht, hne, heq⟩
    · by_cases hmem : pyStrip u ∈ ex
      · obtain ⟨suf, h1, h2, h3, h4⟩ := ih db ex
        refine ⟨suf, ?_, h2, h3, ?_⟩
        · rw [show importLoop (u :: rest) db ex = importLoop rest db ex by
            simp [importLoop, hu, hmem]]
          exact h1
        · intro r hr
          obtain ⟨t, ht, hne, heq⟩ := h4 r hr
          exact ⟨t, List.mem_cons_of_mem u ht, hne, heq⟩
      · obtain ⟨suf, h1, h2, h3, h4⟩ :=
          ih (db ++ [{ name := pyStrip u, value := "", processed := false, glossaries := [] }])
            (pyStrip u :: ex)
        refine ⟨{ name := pyStrip u, value := "", processed := false, glossaries := [] } :: suf,
          ?_, ?_, ?_, ?_⟩
        · rw [show importLoop (u :: rest) db ex =
              importLoop rest
                (db ++ [{ name := pyStrip u, value := "", processed := false, glossaries := [] }])
                (pyStrip u :: ex) by
            simp [importLoop, hu, hmem]]
          rw [h1, List.append_assoc, List.singleton_append]
        · intro r hr
          rcases List.mem_cons.mp hr with h | h
          · subst h
            exact ⟨rfl, rfl, rfl, hmem⟩
          · obtain ⟨hv, hp, hg, hn⟩ := h2 r h
            exact ⟨hv, hp, hg, fun hc => hn (List.mem_cons_of_mem _ hc)⟩
        · rw [List.map_cons]
          refine List.Nodup.cons ?_ h3
          intro hc
          rcases List.mem_map.mp hc with ⟨r, hr, hname⟩
          exact (h2 r hr).2.2.2 (by rw [hname]; exact List.mem_cons_self _ _)
        · intro r hr
          rcases List.mem_cons.mp hr with h | h
          · subst h
            exact ⟨u, List.mem_cons_self u rest, hu, rfl⟩
          · obtain ⟨t, ht, hne, heq⟩ := h4 r h
            exact ⟨t, List.mem_cons_of_mem u ht, hne, heq⟩

theorem importLoop_skip (c : List String) :
    ∀ (db : List Record) (ex : List String),
      (∀ t ∈ c, t ≠ "" → pyStrip t ∈ ex) → importLoop c db ex = db := by
  induction c with
  | nil => intro db ex _; rfl
  | cons u rest ih =>
    intro db ex h
    by_cases hu : u = ""
    · rw [show importLoop (u :: rest) db ex = importLoop rest db ex by simp [importLoop, hu]]
      exact ih db ex (fun t ht => h t (List.mem_cons_of_mem u ht))
    · have hmem : pyStrip u ∈ ex := h u (List.mem_cons_self u rest) hu
      rw [show importLoop (u :: rest) db ex = importLoop rest db ex by
        simp [importLoop, hu, hmem]]
      exact ih db ex (fun t ht => h t (List.mem_cons_of_mem u ht))

theorem importLoop_sub_names (c : List String) (db : List Record) (ex : List String) :
    ∀ x ∈ db.map (fun r => r.name), x ∈ (importLoop c db ex).map (fun r => r.name) := by
  obtain ⟨suf, h1, -, -, -⟩ := importLoop_spec c db ex
  intro x hx
  rw [h1, List.map_append]
  exact List.mem_append_left _ hx

theorem importLoop_names (c : List String) :
    ∀ (db : List Record) (ex : List String),
      (∀ x ∈ ex, x ∈ db.map (fun r => r.name)) →
      (∀ t ∈ c, t ≠ "" → pyStrip t ∈ (importLoop c db ex).map (fun r => r.name)) ∧
      (∀ x ∈ ex, x ∈ (importLoop c db ex).map (fun r => r.name)) := by
  induction c with
  | nil =>
    intro db ex hex
    exact ⟨by simp, fun x hx => by simpa [importLoop] using hex x hx⟩
  | cons u rest ih =>
    intro db ex hex
    by_cases hu : u = ""
    · have hrw : importLoop (u :: rest) db ex = importLoop rest db ex := by
        simp [importLoop, hu]
      obtain ⟨ha, hb⟩ := ih db ex hex
      refine ⟨?_, by rw [hrw]; exact hb⟩
      intro t ht hne
      rcases List.mem_cons.mp ht with h | h
      · exact absurd (h ▸ hu) hne
      · rw [hrw]
        exact ha t h hne
    · by_cases hmem : pyStrip u ∈ ex
      · have hrw : importLoop (u :: rest) db ex = importLoop rest db ex := by
          simp [importLoop, hu, hmem]
        obtain ⟨ha, hb⟩ := ih db ex hex
        refine ⟨?_, by rw [hrw]; exact hb⟩
        intro t ht hne
        rcases List.mem_cons.mp ht with h | h
        · subst h
          rw [hrw]
          exact hb (pyStrip t) hmem
        · rw [hrw]
          exact ha t h hne
      · have hrw : importLoop (u :: rest) db ex =
            importLoop rest
              (db ++ [{ name := pyStrip u, value := "", processed := false, glossaries := [] }])
              (pyStrip u :: ex) := by
          simp [importLoop, hu, hmem]
        have hex' : ∀ x ∈ pyStrip u :: ex,
            x ∈ (db ++
              [({ name := pyStrip u, value := "", processed := false,
                  glossaries := [] } : Record)]).map (fun r => r.name) := by
          intro x hx
          rcases List.mem_cons.mp hx with h | h
          · subst h
            rw [List.map_append]
            exact List.mem_append_right _ (by simp)
          · rw [List.map_append]
            exact List.mem_append_left _ (hex x h)
        obtain ⟨ha, hb⟩ := ih _ _ hex'
        refine ⟨?_, ?_⟩
        · intro t ht hne
          rcases List.mem_cons.mp ht with h | h
          · subst h
            rw [hrw]
            exact hb (pyStrip t) (List.mem_cons_self _ _)
          · rw [hrw]
            exact ha t h hne
        · intro x hx
          rw [hrw]
          exact hb x (List.mem_cons_of_mem _ hx)

/-! ## Helper lemmas: catalog write-back -/

theorem updateMsgs_eq (tr : String → Option String) (catalog : List XmlMessage) :
    updateMsgs tr catalog =
      (catalog.map (updOne tr), (catalog.filter (shouldUpd tr)).length) := by
  induction catalog with
  | nil => rfl
  | cons m rest ih =>
    cases hm : m.name with
    | none =>
      have hs : shouldUpd tr m = false := by simp [shouldUpd, hm]
      simp [updateMsgs, ih, hm, updOne, hs, List.filter_cons]
    | some s =>
      by_cases hs0 : s = ""
      · have hs : shouldUpd tr m = false := by simp [shouldUpd, hm, hs0]
        simp [updateMsgs, ih, hm, hs0, updOne, hs, List.filter_cons]
      · cases htr : tr (pyStrip s) with
        | none =>
          have hs : shouldUpd tr m = false := by simp [shouldUpd, hm, hs0, htr]
          simp [updateMsgs, ih, hm, hs0, htr, updOne, hs, List.filter_cons]
        | some v =>
          cases hv : m.value with
          | none =>
            have hs : shouldUpd tr m = false := by simp [shouldUpd, hm, hs0, htr, hv]
            simp [updateMsgs, ih, hm, hs0, htr, hv, updOne, hs, List.filter_cons]
          | some w =>
            have hs : shouldUpd tr m = true := by simp [shouldUpd, hm, hs0, htr, hv]
            have hu : updOne tr m = { m with value := some v } := by
              simp [updOne, hs, hm, htr]
            simp [updateMsgs, ih, hm, hs0, htr, hv, hu, hs, List.filter_cons]

theorem lookupLast_isSome (db : List Record) (n : String) :
    (lookupLast (translationsOf db) n).isSome = true ↔
      ∃ r ∈ db, r.name = n ∧ r.value ≠ "" := by
  unfold lookupLast translationsOf
  cases hf : (((db.filter (fun r => decide (r.value ≠ ""))).map
      (fun r => (r.name, r.value))).reverse.find? (fun p => p.1 == n)) with
  | none =>
    simp only [Option.map_none', Option.isSome_none, Bool.false_eq_true, false_iff]
    rintro ⟨r, hr, hn, hv⟩
    have : ∃ p ∈ ((db.filter (fun r => decide (r.value ≠ ""))).map
        (fun r => (r.name, r.value))).reverse, (p.1 == n) = true := by
      refine ⟨(r.name, r.value), ?_, by simp [hn]⟩
      rw [List.mem_reverse]
      exact List.mem_map.mpr ⟨r, List.mem_filter.mpr ⟨hr, by simpa using hv⟩, rfl⟩
    rw [← List.find?_isSome, hf] at this
    simp at this
  | some p =>
    simp only [Option.map_some', Option.isSome_some, true_iff]
    have hp := List.find?_some hf
    have hpm := List.mem_of_find?_eq_some hf
    rw [List.mem_reverse] at hpm
    rcases List.mem_map.mp hpm with ⟨r, hr, hpr⟩
    rcases List.mem_filter.mp hr with ⟨hrdb, hrv⟩
    refine ⟨r, hrdb, ?_, by simpa using hrv⟩
    have : p.1 = n := by simpa using hp
    rw [← this, ← hpr]

/-! ## Helper lemmas: prompt construction -/

theorem relevantTerms_idem (ts : List String) (c : String) :
    relevantTerms (relevantTerms ts c) c = relevantTerms ts c := by
  simp [relevantTerms, List.filter_filter]

theorem hasSub_nil (l : List Char) : hasSub [] l = true := by
  cases l <;> simp [hasSub, startsList]

theorem startsList_self_append (n post : List Char) : startsList n (n ++ post) = true := by
  induction n with
  | nil => rfl
  | cons a as ih => simp [startsList, ih]

theorem hasSub_mid (pre n post : List Char) : hasSub n (pre ++ n ++ post) = true := by
  induction pre with
  | nil =>
    cases n with
    | nil => simpa using hasSub_nil post
    | cons a as =>
      have hstep : hasSub (a :: as) ((a :: as) ++ post) =
          (startsList (a :: as) ((a :: as) ++ post) || hasSub (a :: as) (as ++ post)) := rfl
      rw [List.nil_append, hstep, startsList_self_append, Bool.true_or]
  | cons p pre ih =>
    have hstep : hasSub n ((p :: pre) ++ n ++ post) =
        (startsList n ((p :: pre) ++ n ++ post) || hasSub n (pre ++ n ++ post)) := rfl
    rw [hstep, ih, Bool.or_true]

theorem isSubstr_append_mid (a b c : String) : isSubstr b (a ++ b ++ c) = true := by
  unfold isSubstr
  rw [String.data_append, String.data_append]
  exact hasSub_mid a.data b.data c.data

theorem quoteTerm_data (x : String) :
    (quoteTerm x).data = '\x27' :: (x.data ++ ['\x27']) := by
  unfold quoteTerm
  rw [String.data_append, String.data_append]
  rfl

theorem joinComma_quote_ne (x : String) (xs : List String) :
    joinComma ((x :: xs).map quoteTerm) ≠ "" := by
  cases xs with
  | nil =>
    intro h
    have h' : quoteTerm x = "" := h
    have hd : (quoteTerm x).data = [] := by rw [h']
    rw [quoteTerm_data] at hd
    exact List.noConfusion hd
  | cons y ys =>
    intro h
    have h' : (quoteTerm x ++ ", ") ++ joinComma ((y :: ys).map quoteTerm) = "" := h
    have hd : ((quoteTerm x ++ ", ") ++ joinComma ((y :: ys).map quoteTerm)).data = [] := by
      rw [h']
    rw [String.data_append, String.data_append, quoteTerm_data] at hd
    simp at hd

/-! ## Helper lemmas: whitespace normalization of the aligner -/

theorem subWs_mem (l : List Char) :
    ∀ (b : Bool), ∀ c ∈ subWsAux b l, c.isWhitespace = true → c = ' ' := by
  induction l with
  | nil => intro b c hc; simp [subWsAux] at hc
  | cons d rest ih =>
    intro b c hc hw
    by_cases hd : d.isWhitespace
    · cases b with
      | true =>
        rw [show subWsAux true (d :: rest) = subWsAux true rest by simp [subWsAux, hd]] at hc
        exact ih true c hc hw
      | false =>
        rw [show subWsAux false (d :: rest) = ' ' :: subWsAux true rest by
          simp [subWsAux, hd]] at hc
        rcases List.mem_cons.mp hc with h | h
        · exact h
        · exact ih true c h hw
    · rw [show subWsAux b (d :: rest) = d :: subWsAux false rest by
        simp [subWsAux, hd]] at hc
      rcases List.mem_cons.mp hc with h | h
      · subst h
        exact absurd hw (by simpa using hd)
      · exact ih false c h hw

theorem subWs_head_true (l : List Char) :
    ∀ d t, subWsAux true l = d :: t → d.isWhitespace = false := by
  induction l with
  | nil => intro d t h; simp [subWsAux] at h
  | cons c rest ih =>
    intro d t h
    by_cases hc : c.isWhitespace
    · rw [show subWsAux true (c :: rest) = subWsAux true rest by simp [subWsAux, hc]] at h
      exact ih d t h
    · rw [show subWsAux true (c :: rest) = c :: subWsAux false rest by
        simp [subWsAux, hc]] at h
      rcases List.cons.injEq .. ▸ h with ⟨h1, -⟩
      exact h1 ▸ by simpa using hc

theorem subWs_chain (l : List Char) :
    ∀ (b : Bool), List.Chain' noWsPair (subWsAux b l) := by
  induction l with
  | nil => intro b; simp [subWsAux]
  | cons c rest ih =>
    intro b
    by_cases hc : c.isWhitespace
    · cases b with
      | true =>
        rw [show subWsAux true (c :: rest) = subWsAux true rest by simp [subWsAux, hc]]
        exact ih true
      | false =>
        rw [show subWsAux false (c :: rest) = ' ' :: subWsAux true rest by
          simp [subWsAux, hc]]
        rw [List.chain'_cons']
        refine ⟨?_, ih true⟩
        intro y hy
        cases hsw : subWsAux true rest with
        | nil => rw [hsw] at hy; simp at hy
        | cons d t =>
          have h1 : d = y := by
            rw [hsw] at hy
            simpa using hy
          rintro ⟨-, hw2⟩
          rw [← h1, subWs_head_true rest d t hsw] at hw2
          exact Bool.noConfusion hw2
    · rw [show subWsAux b (c :: rest) = c :: subWsAux false rest by simp [subWsAux, hc]]
      rw [List.chain'_cons']
      refine ⟨?_, ih false⟩
      intro y hy
      rintro ⟨hw1, -⟩
      exact absurd hw1 (by simpa using hc)

theorem subWs_noop (l : List Char)
    (hmem : ∀ c ∈ l, c.isWhitespace = true → c = ' ')
    (hch : List.Chain' noWsPair l) :
    subWsAux false l = l := by
  induction l with
  | nil => rfl
  | cons c rest ih =>
    by_cases hc : c.isWhitespace
    · have hc' : c = ' ' := hmem c (List.mem_cons_self _ _) (by simpa using hc)
      rw [show subWsAux false (c :: rest) = ' ' :: subWsAux true rest by
        simp [subWsAux, hc]]
      have hrest : subWsAux false rest = rest :=
        ih (fun x hx => hmem x (List.mem_cons_of_mem c hx)) hch.tail
      cases rest with
      | nil => rw [hc']; rfl
      | cons d t =>
        have hd : d.isWhitespace = false := by
          have := (List.chain'_cons'.mp hch).1 d (by simp)
          unfold noWsPair at this
          by_contra hcon
          exact this ⟨by simpa using hc, by simpa using hcon⟩
        have h1 : subWsAux true (d :: t) = d :: subWsAux false t := by
          simp [subWsAux, hd]
        have h2 : subWsAux false (d :: t) = d :: subWsAux false t := by
          simp [subWsAux, hd]
        rw [h1, ← h2, hrest, hc']
    · rw [show subWsAux false (c :: rest) = c :: subWsAux false rest by
        simp [subWsAux, hc]]
      rw [ih (fun x hx => hmem x (List.mem_cons_of_mem c hx)) hch.tail]

theorem dropWhile_head_not {p : Char → Bool} (l : List Char) :
    ∀ d t, l.dropWhile p = d :: t → p d = false := by
  induction l with
  | nil => intro d t h; simp at h
  | cons c rest ih =>
    intro d t h
    by_cases hc : p c
    · rw [List.dropWhile_cons_of_pos hc] at h
      exact ih d t h
    · rw [List.dropWhile_cons_of_neg hc] at h
      rcases List.cons.injEq .. ▸ h with ⟨h1, -⟩
      exact h1 ▸ by simpa using hc

theorem chain'_dropWhile {R : Char → Char → Prop} {p : Char → Bool} (l : List Char)
    (h : List.Chain' R l) : List.Chain' R (l.dropWhile p) := by
  induction l with
  | nil => simp
  | cons c rest ih =>
    by_cases hc : p c
    · rw [List.dropWhile_cons_of_pos hc]
      exact ih h.tail
    · rw [List.dropWhile_cons_of_neg hc]
      exact h

theorem dropTrail_head (l : List Char) :
    ∀ d t, dropTrailWs l = d :: t → ∃ t', l = d :: t' := by
  cases l with
  | nil => intro d t h; simp [dropTrailWs] at h
  | cons c rest =>
    intro d t h
    unfold dropTrailWs at h
    by_cases hcond : (dropTrailWs rest).isEmpty && c.isWhitespace
    · rw [if_pos hcond] at h
      exact List.noConfusion h
    · rw [if_neg hcond] at h
      rcases List.cons.injEq .. ▸ h with ⟨h1, -⟩
      exact ⟨rest, by rw [h1]⟩

theorem mem_dropTrail (l : List Char) : ∀ c ∈ dropTrailWs l, c ∈ l := by
  induction l with
  | nil => intro c hc; simp [dropTrailWs] at hc
  | cons d rest ih =>
    intro c hc
    unfold dropTrailWs at hc
    by_cases hcond : (dropTrailWs rest).isEmpty && d.isWhitespace
    · rw [if_pos hcond] at hc
      simp at hc
    · rw [if_neg hcond] at hc
      rcases List.mem_cons.mp hc with h | h
      · exact h ▸ List.mem_cons_self _ _
      · exact List.mem_cons_of_mem d (ih c h)

theorem chain'_dropTrail {R : Char → Char → Prop} (l : List Char)
    (h : List.Chain' R l) : List.Chain' R (dropTrailWs l) := by
  induction l with
  | nil => simp [dropTrailWs]
  | cons c rest ih =>
    unfold dropTrailWs
    by_cases hcond : (dropTrailWs rest).isEmpty && c.isWhitespace
    · rw [if_pos hcond]
      simp
    · rw [if_neg hcond]
      rw [List.chain'_cons']
      refine ⟨?_, ih h.tail⟩
      intro y hy
      cases hdt : dropTrailWs rest with
      | nil => rw [hdt] at hy; simp at hy
      | cons d t =>
        have h1 : d = y := by
          rw [hdt] at hy
          simpa using hy
        obtain ⟨t', ht'⟩ := dropTrail_head rest d t hdt
        rw [← h1]
        exact (List.chain'_cons'.mp h).1 d (by rw [ht']; simp)

theorem dropTrail_idem (l : List Char) : dropTrailWs (dropTrailWs l) = dropTrailWs l := by
  induction l with
  | nil => rfl
  | cons c rest ih =>
    by_cases hcond : (dropTrailWs rest).isEmpty && c.isWhitespace
    · simp only [dropTrailWs]
      rw [if_pos hcond]
      rfl
    · simp only [dropTrailWs]
      rw [if_neg hcond]
      simp only [dropTrailWs]
      rw [ih, if_neg hcond]

theorem mem_of_dropWhile {p : Char → Bool} (l : List Char) :
    ∀ c ∈ l.dropWhile p, c ∈ l := by
  induction l with
  | nil => intro c hc; simp at hc
  | cons d rest ih =>
    intro c hc
    by_cases hd : p d
    · rw [List.dropWhile_cons_of_pos hd] at hc
      exact List.mem_cons_of_mem d (ih c hc)
    · rw [List.dropWhile_cons_of_neg hd] at hc
      exact hc

theorem stripChars_noLead (l : List Char) :
    ∀ d t, stripChars l = d :: t → d.isWhitespace = false := by
  intro d t h
  unfold stripChars at h
  obtain ⟨t', ht'⟩ := dropTrail_head _ d t h
  exact dropWhile_head_not l d t' ht'

theorem stripChars_idem (l : List Char) : stripChars (stripChars l) = stripChars l := by
  cases hs : stripChars l with
  | nil => rfl
  | cons d t =>
    unfold stripChars
    rw [show (d :: t).dropWhile Char.isWhitespace = d :: t from
      List.dropWhile_cons_of_neg (by rw [stripChars_noLead l d t hs]; exact Bool.noConfusion)]
    have : dropTrailWs (d :: t) = d :: t := by
      conv at hs => rw [stripChars]
      rw [← hs, dropTrail_idem]
    rw [this]

theorem cleanText_idem (s : String) : cleanText (cleanText s) = cleanText s := by
  have hdata : (cleanText s).data = stripChars (subWsAux false s.data) := rfl
  have hmem_m : ∀ c ∈ (cleanText s).data, c.isWhitespace = true → c = ' ' := by
    intro c hc hw
    rw [hdata] at hc
    have hc2 : c ∈ subWsAux false s.data := by
      unfold stripChars at hc
      exact mem_of_dropWhile _ c (mem_dropTrail _ c hc)
    exact subWs_mem s.data false c hc2 hw
  have hch_m : List.Chain' noWsPair (cleanText s).data := by
    rw [hdata]
    unfold stripChars
    exact chain'_dropTrail _ (chain'_dropWhile _ (subWs_chain s.data false))
  show (⟨stripChars (subWsAux false (cleanText s).data)⟩ : String) = cleanText s
  rw [subWs_noop (cleanText s).data hmem_m hch_m, hdata, stripChars_idem]
  rfl

/-! ## Helper lemmas: the sort order of the aligner -/

theorem strLe_total (a : List Char) : ∀ b, strLe a b = true ∨ strLe b a = true := by
  induction a with
  | nil => intro b; left; rfl
  | cons c cs ih =>
    intro b
    cases b with
    | nil => right; rfl
    | cons d ds =>
      by_cases h : c.toNat = d.toNat
      · rcases ih ds with hle | hle
        · left
          simp only [strLe, if_pos h]
          exact hle
        · right
          simp only [strLe, if_pos h.symm]
          exact hle
      · by_cases hlt : c.toNat < d.toNat
        · left
          simp only [strLe, if_neg h]
          exact decide_eq_true hlt
        · right
          have h2 : ¬ d.toNat = c.toNat := fun e => h e.symm
          simp only [strLe, if_neg h2]
          exact decide_eq_true (by omega)

theorem strLe_trans (a : List Char) :
    ∀ b c, strLe a b = true → strLe b c = true → strLe a c = true := by
  induction a with
  | nil => intro b c _ _; rfl
  | cons x xs ih =>
    intro b c hab hbc
    cases b with
    | nil => exact absurd hab (by simp [strLe])
    | cons y ys =>
      cases c with
      | nil => exact absurd hbc (by simp [strLe])
      | cons z zs =>
        simp only [strLe] at hab hbc ⊢
        by_cases hxy : x.toNat = y.toNat
        · rw [if_pos hxy] at hab
          by_cases hyz : y.toNat = z.toNat
          · rw [if_pos hyz] at hbc
            rw [if_pos (hxy.trans hyz)]
            exact ih ys zs hab hbc
          · rw [if_neg hyz] at hbc
            have hlt : y.toNat < z.toNat := of_decide_eq_true hbc
            rw [if_neg (show ¬ x.toNat = z.toNat by omega)]
            exact decide_eq_true (by omega)
        · rw [if_neg hxy] at hab
          have hlt : x.toNat < y.toNat := of_decide_eq_true hab
          by_cases hyz : y.toNat = z.toNat
          · rw [if_pos hyz] at hbc
            rw [if_neg (show ¬ x.toNat = z.toNat by omega)]
            exact decide_eq_true (by omega)
          · rw [if_neg hyz] at hbc
            have hlt2 : y.toNat < z.toNat := of_decide_eq_true hbc
            rw [if_neg (show ¬ x.toNat = z.toNat by omega)]
            exact decide_eq_true (by omega)

theorem keyLe_total (a b : String) : keyLe a b = true ∨ keyLe b a = true :=
  strLe_total _ _

theorem keyLe_trans (a b c : String) :
    keyLe a b = true → keyLe b c = true → keyLe a c = true :=
  strLe_trans _ _ _

/-! ## Helper lemmas: name sets of the aligner -/

theorem mem_getNames (msgs : List XmlMessage) (x : String) :
    x ∈ getNames msgs ↔
      ∃ m ∈ msgs, ∃ t, m.name = some t ∧ cleanText t = x ∧ cleanText t ≠ "" := by
  unfold getNames
  rw [List.mem_filterMap]
  constructor
  · rintro ⟨m, hm, hf⟩
    cases hname : m.name with
    | none =>
      rw [hname] at hf
      exact absurd hf (by simp)
    | some t =>
      rw [hname] at hf
      have hf' : (if cleanText t = "" then none else some (cleanText t)) = some x := hf
      by_cases hct : cleanText t = ""
      · rw [if_pos hct] at hf'
        exact absurd hf' (by simp)
      · rw [if_neg hct] at hf'
        have hx : cleanText t = x := by simpa using hf'
        exact ⟨m, hm, t, hname, hx, hct⟩
  · rintro ⟨m, hm, t, hname, hx, hct⟩
    refine ⟨m, hm, ?_⟩
    rw [hname]
    simp only [if_neg hct]
    rw [hx]

theorem getNames_ne (msgs : List XmlMessage) : ∀ x ∈ getNames msgs, x ≠ "" := by
  intro x hx
  rcases (mem_getNames msgs x).mp hx with ⟨-, -, t, -, hx', hct⟩
  rw [← hx']
  exact hct

theorem getNames_fixed (msgs : List XmlMessage) :
    ∀ x ∈ getNames msgs, cleanText x = x := by
  intro x hx
  rcases (mem_getNames msgs x).mp hx with ⟨-, -, t, -, hx', -⟩
  rw [← hx', cleanText_idem]

theorem pairKey_eq (target : List XmlMessage) (missing : List String)
    (hm : ∀ x ∈ missing, cleanText x = x) :
    ∀ p ∈ existingPairs target ++ addedPairs target missing, msgKey p.2 = p.1 := by
  intro p hp
  rcases List.mem_append.mp hp with h | h
  · rcases List.mem_filterMap.mp h with ⟨m, hmem, hf⟩
    cases hname : m.name with
    | none =>
      rw [hname] at hf
      exact absurd hf (by simp)
    | some t =>
      rw [hname] at hf
      have hpt : (cleanText t, m) = p := by simpa using hf
      rw [← hpt]
      simp [msgKey, hname]
  · rcases List.mem_map.mp h with ⟨tag, htag, hf⟩
    have htm : tag ∈ missing := (List.mem_filter.mp htag).1
    rw [← hf]
    simp only [msgKey, Option.getD_some]
    exact hm tag htm

theorem mem_uaf (target : List XmlMessage) (missing : List String)
    (p : String × XmlMessage)
    (hp : p ∈ existingPairs target ++ addedPairs target missing) :
    p.2 ∈ update_and_format_xml target missing := by
  unfold update_and_format_xml
  refine List.mem_map.mpr ⟨p, ?_, rfl⟩
  exact (List.perm_insertionSort _ _).mem_iff.mpr hp

theorem uaf_names (target : List XmlMessage) (missing : List String)
    (hm : ∀ x ∈ missing, cleanText x = x) :
    (∀ x ∈ getNames target, x ∈ getNames (update_and_format_xml target missing)) ∧
    (∀ x ∈ missing, x ≠ "" → x ∈ getNames (update_and_format_xml target missing)) := by
  constructor
  · intro x hx
    rcases (mem_getNames target x).mp hx with ⟨m, hmem, t, hname, hct, hne⟩
    have hpair : (cleanText t, m) ∈ existingPairs target := by
      refine List.mem_filterMap.mpr ⟨m, hmem, ?_⟩
      rw [hname]
      rfl
    have hres : m ∈ update_and_format_xml target missing :=
      mem_uaf target missing (cleanText t, m) (List.mem_append_left _ hpair)
    exact (mem_getNames _ x).mpr ⟨m, hres, t, hname, hct, hne⟩
  · intro x hx hxne
    by_cases hex : x ∈ (existingPairs target).map (fun p => p.1)
    · rcases List.mem_map.mp hex with ⟨p, hp, hp1⟩
      rcases List.mem_filterMap.mp hp with ⟨m, hmem, hf⟩
      cases hname : m.name with
      | none =>
        rw [hname] at hf
        exact absurd hf (by simp)
      | some t =>
        rw [hname] at hf
        have hpt : (cleanText t, m) = p := by simpa using hf
        have hct : cleanText t = x := by rw [← hp1, ← hpt]
        have hres : m ∈ update_and_format_xml target missing := by
          have hmm := mem_uaf target missing p (List.mem_append_left _ hp)
          rw [← hpt] at hmm
          exact hmm
        exact (mem_getNames _ x).mpr ⟨m, hres, t, hname, hct, by rw [hct]; exact hxne⟩
    · have hpair : (x, ({ name := some x, value := some "" } : XmlMessage)) ∈
          addedPairs target missing := by
        refine List.mem_map.mpr ⟨x, List.mem_filter.mpr ⟨hx, ?_⟩, rfl⟩
        simpa using hex
      have hres : ({ name := some x, value := some "" } : XmlMessage) ∈
          update_and_format_xml target missing :=
        mem_uaf target missing _ (List.mem_append_right _ hpair)
      exact (mem_getNames _ x).mpr ⟨_, hres, x, rfl, hm x hx, by rw [hm x hx]; exact hxne⟩

theorem uaf_sorted (target : List XmlMessage) (missing : List String)
    (hm : ∀ x ∈ missing, cleanText x = x) :
    List.Pairwise (fun a b => keyLe (msgKey a) (msgKey b) = true)
      (update_and_format_xml target missing) := by
  haveI : IsTotal (String × XmlMessage)
      (fun p q : String × XmlMessage => keyLe p.1 q.1 = true) :=
    ⟨fun p q => keyLe_total p.1 q.1⟩
  haveI : IsTrans (String × XmlMessage)
      (fun p q : String × XmlMessage => keyLe p.1 q.1 = true) :=
    ⟨fun p q s hpq hqs => keyLe_trans _ _ _ hpq hqs⟩
  have hsorted := List.sorted_insertionSort
    (fun p q : String × XmlMessage => keyLe p.1 q.1 = true)
    (existingPairs target ++ addedPairs target missing)
  unfold update_and_format_xml
  rw [List.pairwise_map]
  refine List.Pairwise.imp_of_mem ?_ hsorted
  intro p q hp hq hr
  have hp' := (List.perm_insertionSort
    (fun p q : String × XmlMessage => keyLe p.1 q.1 = true) _).mem_iff.mp hp
  have hq' := (List.perm_insertionSort
    (fun p q : String × XmlMessage => keyLe p.1 q.1 = true) _).mem_iff.mp hq
  rw [pairKey_eq target missing hm p hp', pairKey_eq target missing hm q hq']
  exact hr

theorem applyBatch_length (xs : List String) (db : List Record) :
    (applyBatch xs db).length = db.length := by
  induction db generalizing xs with
  | nil => rfl
  | cons d rest ih =>
    cases hd : d.processed with
    | true => simp [applyBatch, hd, ih]
    | false =>
      cases xs with
      | nil => simp [applyBatch, hd]
      | cons t ts => simp [applyBatch, hd, ih]

theorem take_min_lt_iff (bs n : Nat) : (bs ⊓ n < n) ↔ bs < n := by
  rcases Nat.le_total bs n with h | h
  · rw [Nat.min_eq_left h]
  · rw [Nat.min_eq_right h]
    omega

/-! ## Claims -/

/-- C1, counterexample.  The claim says a backend error raised while
translating a single record during the fallback pass is logged, leaves only
that record unprocessed and is not fatal to the run.  In the source,
`translate_items_fallback` has no `try` around the per-record call: with a
store of two unprocessed records whose first fallback call fails (and whose
second would succeed), the fallback — and with it the whole
`translate_items` iteration — aborts with the propagated exception
(`Except.error ()`), before `save_json` persists anything, so the second
record is not translated either and the run dies. -/
theorem c1_counterexample :
    translate_items_fallback (fun n => if n = "x" then .error () else .ok "Y") 5
      [{ name := "x", value := "", processed := false, glossaries := [] },
       { name := "y", value := "", processed := false, glossaries := [] }] = .error () ∧
    translate_items .unparsable (fun n => if n = "x" then .error () else .ok "Y")
      [{ name := "x", value := "", processed := false, glossaries := [] },
       { name := "y", value := "", processed := false, glossaries := [] }] 5 =
      .error () :=
  ⟨rfl, rfl⟩

/-- C1, amended.  During the fallback pass a backend error on any record of
the batch propagates out of `translate_items_fallback` (aborting the run
with nothing persisted, so the whole batch is retried on a later run); when
every per-record call answers, the pass succeeds and marks each of the
first `k` unprocessed records processed with its stripped reply as value,
leaving every other record unchanged. -/
theorem c1_amended (fb : String → Except Unit String) (g : String → String) (k : Nat)
    (db : List Record) :
    ((∃ r ∈ (db.filter (fun r => !r.processed)).take k, fb r.name = .error ()) →
      translate_items_fallback fb k db = .error ())
  ∧ translate_items_fallback (fun n => .ok (g n)) k db = .ok (fallbackPure g k db)
  ∧ (∀ j r, db[j]? = some r →
      (fallbackPure g k db)[j]? = some (
        if r.processed = false ∧ unprocBefore db j < k then
          { r with value := pyStrip (g r.name), processed := true }
        else r)) :=
  ⟨translate_items_fallback_error fb k db,
   translate_items_fallback_eq_pure g k db,
   fun j r h => fallbackPure_getElem? db g k j r h⟩

/-- C2, counterexample.  The claim says one translation iteration returns
exactly whether unprocessed records remain afterwards.  On the fallback path
the source returns `True` unconditionally: with a single unprocessed record,
a batch size of 5 and an unparsable reply, the fallback processes the whole
store yet the iteration still reports more work. -/
theorem c2_counterexample :
    translate_items .unparsable (fun _ => .ok "x")
      [{ name := "a", value := "", processed := false, glossaries := [] }] 5 =
      .ok ([{ name := "a", value := "x", processed := true, glossaries := [] }], true) ∧
    ([({ name := "a", value := "x", processed := true, glossaries := [] } : Record)].filter
      (fun r => !r.processed)).length = 0 :=
  ⟨rfl, rfl⟩

/-- C2, amended.  With no unprocessed records the iteration returns
`(db, false)` without consulting the backend (the result is the same for
every reply and fallback transport); on the successful batch path it returns
exactly whether unprocessed records remain
(`processed_count < total_unprocessed_count_before_batch`); after a
successful fallback pass it always returns `true`, even when nothing is
left. -/
theorem c2_amended (db : List Record) (bs : Nat) (xs : List String) (g : String → String)
    (reply : BatchReply) (fb : String → Except Unit String) :
    (db.filter (fun r => !r.processed) = [] →
      translate_items reply fb db bs = .ok (db, false))
  ∧ (db.filter (fun r => !r.processed) ≠ [] →
      xs.length = ((db.filter (fun r => !r.processed)).take bs).length →
      translate_items (.parsed xs) fb db bs =
        .ok (applyBatch xs db,
          decide (((db.filter (fun r => !r.processed)).take bs).length <
            (db.filter (fun r => !r.processed)).length)))
  ∧ (db.filter (fun r => !r.processed) ≠ [] →
      translate_items .unparsable (fun n => .ok (g n)) db bs =
        .ok (fallbackPure g bs db, true)) := by
  refine ⟨fun h => translate_items_empty reply fb db bs h, fun hne hlen => ?_,
    fun hne => translate_items_unparsable_ok db bs g hne⟩
  rw [translate_items_parsed_ok db xs bs fb hne hlen]
  have hdec : decide ((db.filter (fun r => !r.processed)).length > bs) =
      decide (((db.filter (fun r => !r.processed)).take bs).length <
        (db.filter (fun r => !r.processed)).length) := by
    rw [decide_eq_decide, List.length_take]
    exact (take_min_lt_iff bs (db.filter (fun r => !r.processed)).length).symm
  rw [hdec]

/-- C2, witness for the amended claim: a store with one processed record has
nothing to do, and the iteration reports no more work for any reply. -/
theorem c2_witness :
    translate_items .transportError (fun _ => .error ())
      [{ name := "a", value := "v", processed := true, glossaries := [] }] 3 =
      .ok ([{ name := "a", value := "v", processed := true, glossaries := [] }], false) :=
  (c2_amended [{ name := "a", value := "v", processed := true, glossaries := [] }] 3 []
    (fun _ => "") .transportError (fun _ => .error ())).1 (by decide)

/-- C3, counterexample.  The claim states the invariant that a processed
record always has a non-empty value.  The source validates only the length
of a parsed batch reply, not the content: a reply `[" "]` for a one-record
batch is assigned stripped, leaving a processed record with the empty
value. -/
theorem c3_counterexample :
    translate_items (.parsed [" "]) (fun _ => .ok "")
      [{ name := "a", value := "", processed := false, glossaries := [] }] 1 =
      .ok ([{ name := "a", value := "", processed := true, glossaries := [] }], false) ∧
    ¬ procNonempty [{ name := "a", value := "", processed := true, glossaries := [] }] :=
  ⟨rfl, fun h => (h _ (List.mem_cons_self _ _) rfl) rfl⟩

/-- C3, amended.  The processed-implies-non-empty-value invariant is
preserved by the import (new records are unprocessed) and by the batch and
fallback assignments provided every backend translation is non-blank after
stripping; a blank translation violates it (see the counterexample). -/
theorem c3_amended (catalog : List String) (db : List Record) (xs : List String)
    (g : String → String) (bs : Nat) (hdb : procNonempty db) :
    procNonempty (import_xml_to_json catalog db)
  ∧ ((∀ s ∈ xs, pyStrip s ≠ "") → (∀ n, pyStrip (g n) ≠ "") →
      ∀ db2 more, translate_items (.parsed xs) (fun n => .ok (g n)) db bs =
        .ok (db2, more) → procNonempty db2)
  ∧ ((∀ n, pyStrip (g n) ≠ "") →
      ∀ db2 more, translate_items .unparsable (fun n => .ok (g n)) db bs =
        .ok (db2, more) → procNonempty db2) := by
  refine ⟨?_, ?_, ?_⟩
  · obtain ⟨suffix, h1, h2, -, -⟩ := importLoop_spec catalog db
      ((db.filter (fun r => decide (r.name ≠ ""))).map (fun r => r.name))
    unfold import_xml_to_json
    rw [h1]
    intro r hr hp
    rcases List.mem_append.mp hr with h | h
    · exact hdb r h hp
    · exact absurd hp (by rw [(h2 r h).2.1]; exact Bool.noConfusion)
  · intro hxs hg db2 more heq
    by_cases hne : db.filter (fun r => !r.processed) = []
    · rw [translate_items_empty _ _ _ _ hne] at heq
      simp only [Except.ok.injEq, Prod.mk.injEq] at heq
      rw [← heq.1]
      exact hdb
    · by_cases hlen : xs.length = ((db.filter (fun r => !r.processed)).take bs).length
      · rw [translate_items_parsed_ok db xs bs _ hne hlen] at heq
        simp only [Except.ok.injEq, Prod.mk.injEq] at heq
        rw [← heq.1]
        exact applyBatch_procNonempty db xs hdb hxs
      · rw [translate_items_parsed_mismatch db xs bs _ hlen,
          translate_items_unparsable_ok db bs g hne] at heq
        simp only [Except.ok.injEq, Prod.mk.injEq] at heq
        rw [← heq.1]
        exact fallbackPure_procNonempty db g bs hdb hg
  · intro hg db2 more heq
    by_cases hne : db.filter (fun r => !r.processed) = []
    · rw [translate_items_empty _ _ _ _ hne] at heq
      simp only [Except.ok.injEq, Prod.mk.injEq] at heq
      rw [← heq.1]
      exact hdb
    · rw [translate_items_unparsable_ok db bs g hne] at heq
      simp only [Except.ok.injEq, Prod.mk.injEq] at heq
      rw [← heq.1]
      exact fallbackPure_procNonempty db g bs hdb hg

/-- C3, witness for the amended claim: importing a catalog into an empty
store keeps the invariant. -/
theorem c3_witness : procNonempty (import_xml_to_json ["Hello"] []) :=
  (c3_amended ["Hello"] [] [] (fun _ => "t") 1 (by intro r hr; simp at hr)).1

/-- C4 (confirmed).  When the batch reply parses as a JSON array of strings
whose length equals the batch length, `translate_items` succeeds: the whole
store — in which the i-th unprocessed record received the i-th array element
stripped of surrounding whitespace and its processed flag, every other
record being untouched — is persisted, and the iteration reports whether
records beyond the batch remain. -/
theorem c4_theorem (db : List Record) (xs : List String) (bs : Nat)
    (fb : String → Except Unit String)
    (hne : db.filter (fun r => !r.processed) ≠ [])
    (hlen : xs.length = ((db.filter (fun r => !r.processed)).take bs).length) :
    translate_items (.parsed xs) fb db bs =
      .ok (applyBatch xs db, decide ((db.filter (fun r => !r.processed)).length > bs))
  ∧ (applyBatch xs db).length = db.length
  ∧ (∀ j r, db[j]? = some r →
      (applyBatch xs db)[j]? = some (
        if r.processed = false ∧ unprocBefore db j < xs.length then
          { r with value := pyStrip (xs.getD (unprocBefore db j) ""), processed := true }
        else r)) :=
  ⟨translate_items_parsed_ok db xs bs fb hne hlen,
   applyBatch_length xs db,
   fun j r h => applyBatch_getElem? db xs j r h⟩

/-- C4, witness: the specification's own scenario — a store holding
`["Hello", "World"]` and a reply `["Ciao", "Mondo"]` — satisfies the
hypotheses. -/
theorem c4_witness :
    translate_items (.parsed ["Ciao", "Mondo"]) (fun _ => .error ())
      [{ name := "Hello", value := "", processed := false, glossaries := [] },
       { name := "World", value := "", processed := false, glossaries := [] }] 5 =
      .ok (applyBatch ["Ciao", "Mondo"]
        [{ name := "Hello", value := "", processed := false, glossaries := [] },
         { name := "World", value := "", processed := false, glossaries := [] }],
        decide ((List.filter (fun r => !r.processed)
          [({ name := "Hello", value := "", processed := false, glossaries := [] } : Record),
           { name := "World", value := "", processed := false, glossaries := [] }]).length
          > 5)) :=
  (c4_theorem
    [{ name := "Hello", value := "", processed := false, glossaries := [] },
     { name := "World", value := "", processed := false, glossaries := [] }]
    ["Ciao", "Mondo"] 5 (fun _ => .error ()) (by decide) (by decide)).1

/-- C5 (confirmed).  A parsed reply whose length differs from the batch
length is treated exactly like a parse failure: `translate_items` computes
the same result as on an unparsable reply (nothing is assigned on the batch
path), and when every fallback call answers, the per-record fallback runs
for each batch item individually — the first `batch_size` unprocessed
records each get their own stripped reply and processed flag — instead of
raising. -/
theorem c5_theorem (db : List Record) (xs : List String) (bs : Nat)
    (fb : String → Except Unit String) (g : String → String)
    (hne : db.filter (fun r => !r.processed) ≠ [])
    (hlen : xs.length ≠ ((db.filter (fun r => !r.processed)).take bs).length) :
    translate_items (.parsed xs) fb db bs = translate_items .unparsable fb db bs
  ∧ translate_items (.parsed xs) (fun n => .ok (g n)) db bs =
      .ok (fallbackPure g bs db, true)
  ∧ (∀ j r, db[j]? = some r →
      (fallbackPure g bs db)[j]? = some (
        if r.processed = false ∧ unprocBefore db j < bs then
          { r with value := pyStrip (g r.name), processed := true }
        else r)) :=
  ⟨translate_items_parsed_mismatch db xs bs fb hlen,
   by rw [translate_items_parsed_mismatch db xs bs _ hlen,
     translate_items_unparsable_ok db bs g hne],
   fun j r h => fallbackPure_getElem? db g bs j r h⟩

/-- C5, witness: the specification's scenario — a reply `["Ciao"]` for a
2-item batch — is a length mismatch and lands on the fallback path. -/
theorem c5_witness :
    translate_items (.parsed ["Ciao"]) (fun n => .ok ("T" ++ n))
      [{ name := "Hello", value := "", processed := false, glossaries := [] },
       { name := "World", value := "", processed := false, glossaries := [] }] 5 =
      translate_items .unparsable (fun n => .ok ("T" ++ n))
        [{ name := "Hello", value := "", processed := false, glossaries := [] },
         { name := "World", value := "", processed := false, glossaries := [] }] 5 :=
  (c5_theorem
    [{ name := "Hello", value := "", processed := false, glossaries := [] },
     { name := "World", value := "", processed := false, glossaries := [] }]
    ["Ciao"] 5 (fun n => .ok ("T" ++ n)) (fun n => "T" ++ n) (by decide) (by decide)).1

theorem build_system_prompt_eq (terms : List String) (combined : String)
    (h : relevantTerms terms combined ≠ []) :
    build_system_prompt terms combined true =
      basePrompt ++
        glossaryRule (joinComma ((relevantTerms terms combined).map quoteTerm)) ++
        batchRule := by
  unfold build_system_prompt
  cases hrel : relevantTerms terms combined with
  | nil => exact absurd hrel h
  | cons x xs =>
    simp only [hrel, List.isEmpty_cons, Bool.false_eq_true, if_false,
      if_neg (joinComma_quote_ne x xs), if_true]

/-- C6, counterexample.  The claim says the instruction names only glossary
terms occurring as substrings of the concatenation of the batch texts.  The
source joins the batch texts with single spaces before the substring test,
so the protected two-word term `"a b"` is named for the batch
`["a", "b"]` although it does not occur in the concatenation `"ab"`. -/
theorem c6_counterexample :
    promptTermsOf [{ term := "a b", do_not_translate := true, note := "" }]
      [{ name := "a", value := "", processed := false, glossaries := [] },
       { name := "b", value := "", processed := false, glossaries := [] }] 5 = ["a b"] ∧
    isSubstr "a b"
      (concatAll (batchTexts
        [{ name := "a", value := "", processed := false, glossaries := [] },
         { name := "b", value := "", processed := false, glossaries := [] }] 5)) =
      false :=
  ⟨rfl, rfl⟩

/-- C6, amended.  The batch instruction names exactly the glossary terms
with `do_not_translate = true` occurring as substrings of the
space-separated join of the batch texts (rather than of their plain
concatenation), and every named term is quoted verbatim inside the built
instruction text. -/
theorem c6_amended (glossary : List GlossaryTerm) (db : List Record) (bs : Nat)
    (t : String) :
    (t ∈ promptTermsOf glossary db bs ↔
      (∃ gt ∈ glossary, gt.do_not_translate = true ∧ gt.term = t) ∧
        isSubstr t (joinSpace (batchTexts db bs)) = true)
  ∧ (promptTermsOf glossary db bs ≠ [] →
      isSubstr (joinComma ((promptTermsOf glossary db bs).map quoteTerm))
        (batchPromptOf glossary db bs) = true) := by
  constructor
  · unfold promptTermsOf
    rw [relevantTerms_idem]
    simp only [relevantTerms, List.mem_filter, List.mem_map]
    constructor
    · rintro ⟨⟨gt, ⟨hg, hdnt⟩, rfl⟩, hsub⟩
      exact ⟨⟨gt, hg, hdnt, rfl⟩, hsub⟩
    · rintro ⟨⟨gt, hg, hdnt, rfl⟩, hsub⟩
      exact ⟨⟨gt, ⟨hg, hdnt⟩, rfl⟩, hsub⟩
  · intro hne
    have hne' : relevantTerms
        (relevantTerms ((glossary.filter (fun gt => gt.do_not_translate)).map
          (fun gt => gt.term)) (joinSpace (batchTexts db bs)))
        (joinSpace (batchTexts db bs)) ≠ [] := hne
    have heq := build_system_prompt_eq
      (relevantTerms ((glossary.filter (fun gt => gt.do_not_translate)).map
        (fun gt => gt.term)) (joinSpace (batchTexts db bs)))
      (joinSpace (batchTexts db bs)) hne' 
    have heq2 : batchPromptOf glossary db bs =
        basePrompt ++
          glossaryRule (joinComma ((promptTermsOf glossary db bs).map quoteTerm)) ++
          batchRule := heq
    rw [heq2]
    have hsplit : basePrompt ++
        glossaryRule (joinComma ((promptTermsOf glossary db bs).map quoteTerm)) ++
        batchRule =
        (basePrompt ++ "3. STRICTLY DO NOT TRANSLATE the following terms: [") ++
          joinComma ((promptTermsOf glossary db bs).map quoteTerm) ++
          ("]. Keep them in English.\n" ++ batchRule) := by
      unfold glossaryRule
      simp [String.append_assoc]
    rw [hsplit]
    exact isSubstr_append_mid _ _ _

/-- C7, counterexample.  Importing a catalog whose only `name` text is a
single space is not idempotent: the truthiness test passes (`" "` is
non-empty), the name strips to `""`, and `""`-named records are excluded
from the `existing` set on every run, so each import appends another
duplicate record named `""`. -/
theorem c7_counterexample :
    (import_xml_to_json [" "] []).length = 1 ∧
    (import_xml_to_json [" "] (import_xml_to_json [" "] [])).length = 2 ∧
    ¬ ((import_xml_to_json [" "] (import_xml_to_json [" "] [])).map
      (fun r => r.name)).Nodup := by
  refine ⟨rfl, rfl, ?_⟩
  intro h
  have := List.nodup_cons.mp h
  exact this.1 (by decide)

/-- C7, amended.  Provided no catalog entry strips to the empty string,
the import is idempotent (a second import of the same catalog is the
identity, so record counts agree), every record added by an import carries
`processed = false`, empty value and empty glossary list and has a name
distinct from every non-empty name already in the store, and importing
preserves the no-duplicate-names invariant. -/
theorem c7_amended (catalog : List String) (db : List Record)
    (hcat : ∀ t ∈ catalog, t ≠ "" → pyStrip t ≠ "") :
    import_xml_to_json catalog (import_xml_to_json catalog db) =
      import_xml_to_json catalog db
  ∧ (∃ suffix, import_xml_to_json catalog db = db ++ suffix ∧
      ∀ r ∈ suffix, r.value = "" ∧ r.processed = false ∧ r.glossaries = [] ∧
        (∀ r0 ∈ db, r0.name ≠ "" → r.name ≠ r0.name))
  ∧ ((db.map (fun r => r.name)).Nodup →
      ((import_xml_to_json catalog db).map (fun r => r.name)).Nodup) := by
  have hex0 : ∀ x ∈ (db.filter (fun r => decide (r.name ≠ ""))).map (fun r => r.name),
      x ∈ db.map (fun r => r.name) := by
    intro x hx
    rcases List.mem_map.mp hx with ⟨r, hr, hname⟩
    exact List.mem_map.mpr ⟨r, (List.mem_filter.mp hr).1, hname⟩
  obtain ⟨suffix, h1, h2, h3, h4⟩ := importLoop_spec catalog db
    ((db.filter (fun r => decide (r.name ≠ ""))).map (fun r => r.name))
  have hsufname : ∀ r ∈ suffix, r.name ≠ "" := by
    intro r hr
    obtain ⟨t, ht, htne, heq⟩ := h4 r hr
    rw [heq]
    exact hcat t ht htne
  refine ⟨?_, ⟨suffix, h1, ?_⟩, ?_⟩
  · show importLoop catalog (import_xml_to_json catalog db) _ = import_xml_to_json catalog db
    apply importLoop_skip
    intro t ht htne
    have hmem : pyStrip t ∈ (import_xml_to_json catalog db).map (fun r => r.name) :=
      (importLoop_names catalog db _ hex0).1 t ht htne
    rcases List.mem_map.mp hmem with ⟨r, hr, hname⟩
    refine List.mem_map.mpr ⟨r, List.mem_filter.mpr ⟨hr, ?_⟩, hname⟩
    rw [hname]
    exact decide_eq_true (hcat t ht htne)
  · intro r hr
    obtain ⟨hv, hp, hgl, hnotin⟩ := h2 r hr
    refine ⟨hv, hp, hgl, ?_⟩
    intro r0 hr0 hr0ne heq
    exact hnotin (List.mem_map.mpr
      ⟨r0, List.mem_filter.mpr ⟨hr0, decide_eq_true hr0ne⟩, heq.symm⟩)
  · intro hnd
    show ((importLoop catalog db _).map (fun r => r.name)).Nodup
    rw [h1, List.map_append, List.nodup_append]
    refine ⟨hnd, h3, ?_⟩
    intro x hxdb hxsuf
    rcases List.mem_map.mp hxsuf with ⟨r, hr, hname⟩
    have : r.name ∈ (db.filter (fun r => decide (r.name ≠ ""))).map (fun r => r.name) := by
      rcases List.mem_map.mp hxdb with ⟨r0, hr0, hname0⟩
      refine List.mem_map.mpr ⟨r0, List.mem_filter.mpr ⟨hr0, ?_⟩, by rw [hname0, hname]⟩
      rw [hname0]
      exact decide_eq_true (hname ▸ hsufname r hr)
    exact (h2 r hr).2.2.2 this

/-- C7, witness for the amended claim: importing the scenario's catalog
`["Hello", "World"]` twice equals importing it once. -/
theorem c7_witness :
    import_xml_to_json ["Hello", "World"] (import_xml_to_json ["Hello", "World"] []) =
      import_xml_to_json ["Hello", "World"] [] :=
  (c7_amended ["Hello", "World"] [] (by decide)).1

/-- C8 (confirmed).  Catalog write-back builds its lookup from exactly the
records with a non-empty value, ignoring the processed flag (a name is a
lookup key precisely when some record with that name has a non-empty
value); each catalog entry with a truthy `name` text whose stripped name is
a lookup key and which has a `value` node gets that node's text overwritten
with the looked-up record value, every entry not satisfying this is left
untouched, and the returned count is the number of entries overwritten. -/
theorem c8_theorem (db : List Record) (catalog : List XmlMessage) :
    update_xml_with_translations db catalog =
      (catalog.map (updOne (lookupLast (translationsOf db))),
        (catalog.filter (shouldUpd (lookupLast (translationsOf db)))).length)
  ∧ (∀ n, (lookupLast (translationsOf db) n).isSome = true ↔
      ∃ r ∈ db, r.name = n ∧ r.value ≠ "")
  ∧ (∀ m, shouldUpd (lookupLast (translationsOf db)) m = false →
      updOne (lookupLast (translationsOf db)) m = m) :=
  ⟨updateMsgs_eq (lookupLast (translationsOf db)) catalog,
   fun n => lookupLast_isSome db n,
   fun m hm => by simp [updOne, hm]⟩

/-- C10, counterexample.  The claim says the glossary-mapping pass replaces
each record's `glossaries` with exactly the glossary terms occurring in its
value.  With an empty glossary the source returns before touching the
store, so a stale `glossaries` entry survives although the claimed exact
set is empty. -/
theorem c10_counterexample :
    map_glossaries_to_database
      [{ name := "a", value := "v", processed := false, glossaries := ["stale"] }] [] =
      [{ name := "a", value := "v", processed := false, glossaries := ["stale"] }] ∧
    (([] : List GlossaryTerm).map (fun t => t.term)).filter
      (fun t => isSubstr t "v") = [] :=
  ⟨rfl, rfl⟩

/-- C10, amended.  When the glossary has at least one term, the mapping pass
replaces each record's `glossaries` field with exactly the glossary terms —
in glossary order, regardless of their `do_not_translate` flag — occurring
as substrings of the record's translated `value` (not of its source name),
and leaves name, value and processed flag of every record unchanged. -/
theorem c10_amended (db : List Record) (glossary : List GlossaryTerm)
    (hg : glossary.map (fun t => t.term) ≠ []) :
    map_glossaries_to_database db glossary =
      db.map (fun r => { r with glossaries := glossariesFor glossary r.value })
  ∧ ∀ (j : Nat) (r : Record), db[j]? = some r →
      (map_glossaries_to_database db glossary)[j]? = some
        { name := r.name, value := r.value, processed := r.processed,
          glossaries := glossariesFor glossary r.value } := by
  have hmain : map_glossaries_to_database db glossary =
      db.map (fun r => { r with glossaries := glossariesFor glossary r.value }) := by
    unfold map_glossaries_to_database glossariesFor
    cases hdb : db with
    | nil => rfl
    | cons d rest =>
      simp only [List.isEmpty_cons, Bool.false_eq_true, if_false]
      rw [if_neg (by simpa using hg)]
  refine ⟨hmain, ?_⟩
  intro j r h
  rw [hmain, List.getElem?_map, h]
  rfl

/-- C10, witness for the amended claim: a one-term glossary whose term has
`do_not_translate = false` is still mapped into the record's glossaries. -/
theorem c10_witness :
    map_glossaries_to_database
      [{ name := "n", value := "API docs", processed := true, glossaries := [] }]
      [{ term := "API", do_not_translate := false, note := "" }] =
      [({ name := "n", value := "API docs", processed := true,
          glossaries := [] } : Record)].map
        (fun r =>
          { r with
            glossaries :=
              glossariesFor [{ term := "API", do_not_translate := false, note := "" }]
                r.value }) :=
  (c10_amended
    [{ name := "n", value := "API docs", processed := true, glossaries := [] }]
    [{ term := "API", do_not_translate := false, note := "" }] (by decide)).1

/-- C9, counterexample.  The claim says the target catalog's entries are
sorted case-insensitively after alignment.  When the missing set is empty
the source performs no update at all (`if target_exists and missing:`), so
aligning an already-superset but unsorted target leaves it unsorted. -/
theorem c9_counterexample :
    alignMain [[({ name := some "a", value := some "" } : XmlMessage)]]
      [{ name := some "b", value := some "" }, { name := some "a", value := some "" }] =
      ([({ name := some "b", value := some "" } : XmlMessage),
        { name := some "a", value := some "" }], 0) ∧
    ¬ List.Pairwise (fun a b => keyLe (msgKey a) (msgKey b) = true)
      [({ name := some "b", value := some "" } : XmlMessage),
       { name := some "a", value := some "" }] := by
  refine ⟨rfl, ?_⟩
  decide

/-- C9, amended.  After alignment the target's name set always contains
every name of every other catalog, and alignment is idempotent: a second
run with unchanged inputs computes an empty missing set and inserts zero
entries.  The entries are sorted case-insensitively by cleaned name
whenever the run actually inserted something (a run with an empty missing
set leaves the target file — sorted or not — untouched). -/
theorem c9_amended (others : List (List XmlMessage)) (target : List XmlMessage) :
    (∀ x, (∃ cat ∈ others, x ∈ getNames cat) → x ∈ getNames (alignMain others target).1)
  ∧ ((alignMain others target).2 ≠ 0 →
      List.Pairwise (fun a b => keyLe (msgKey a) (msgKey b) = true)
        (alignMain others target).1)
  ∧ alignMain others (alignMain others target).1 = ((alignMain others target).1, 0) := by
  by_cases hM : ((others.map getNames).flatten.filter
      (fun n => decide (n ∉ getNames target))).dedup = []
  · have halign : alignMain others target = (target, 0) := by
      simp only [alignMain]
      rw [if_pos hM]
    have hflat : ∀ x ∈ (others.map getNames).flatten, x ∈ getNames target := by
      intro x hx
      have hfil := (List.dedup_eq_nil _).mp hM
      have := List.filter_eq_nil_iff.mp hfil x hx
      by_contra hxt
      exact this (decide_eq_true hxt)
    refine ⟨?_, ?_, ?_⟩
    · rintro x ⟨cat, hcat, hx⟩
      rw [halign]
      exact hflat x (List.mem_flatten.mpr ⟨getNames cat,
        List.mem_map.mpr ⟨cat, hcat, rfl⟩, hx⟩)
    · rw [halign]
      intro h0
      exact absurd rfl h0
    · rw [halign]
      exact halign
  · have halign : alignMain others target =
        (update_and_format_xml target
          (((others.map getNames).flatten.filter
            (fun n => decide (n ∉ getNames target))).dedup),
         (((others.map getNames).flatten.filter
            (fun n => decide (n ∉ getNames target))).dedup).length) := by
      simp only [alignMain]
      rw [if_neg hM]
    have hm_fixed : ∀ x ∈ ((others.map getNames).flatten.filter
        (fun n => decide (n ∉ getNames target))).dedup, cleanText x = x := by
      intro x hx
      have hx' : x ∈ (others.map getNames).flatten :=
        (List.mem_filter.mp (List.mem_dedup.mp hx)).1
      rcases List.mem_flatten.mp hx' with ⟨l, hl, hxl⟩
      rcases List.mem_map.mp hl with ⟨cat, hcat, rfl⟩
      exact getNames_fixed cat x hxl
    obtain ⟨hup1, hup2⟩ := uaf_names target _ hm_fixed
    have hsup : ∀ x, (∃ cat ∈ others, x ∈ getNames cat) →
        x ∈ getNames (update_and_format_xml target
          (((others.map getNames).flatten.filter
            (fun n => decide (n ∉ getNames target))).dedup)) := by
      rintro x ⟨cat, hcat, hx⟩
      by_cases hxt : x ∈ getNames target
      · exact hup1 x hxt
      · refine hup2 x ?_ (getNames_ne cat x hx)
        exact List.mem_dedup.mpr (List.mem_filter.mpr
          ⟨List.mem_flatten.mpr ⟨getNames cat, List.mem_map.mpr ⟨cat, hcat, rfl⟩, hx⟩,
           decide_eq_true hxt⟩)
    refine ⟨?_, ?_, ?_⟩
    · intro x hx
      rw [halign]
      exact hsup x hx
    · intro _
      rw [halign]
      exact uaf_sorted target _ hm_fixed
    · rw [halign]
      have hM2 : ((others.map getNames).flatten.filter
          (fun n => decide (n ∉ getNames (update_and_format_xml target
            (((others.map getNames).flatten.filter
              (fun n => decide (n ∉ getNames target))).dedup))))).dedup = [] := by
        rw [List.dedup_eq_nil, List.filter_eq_nil_iff]
        intro a ha hdec
        rcases List.mem_flatten.mp ha with ⟨l, hl, hal⟩
        rcases List.mem_map.mp hl with ⟨cat, hcat, rfl⟩
        exact (of_decide_eq_true hdec) (hsup a ⟨cat, hcat, hal⟩)
      show alignMain others (update_and_format_xml target _) = _
      simp only [alignMain]
      rw [if_pos hM2]
